import Mathlib

set_option linter.unusedSectionVars false

/-!
Shallow embedding of `src/lib.rs` (a separate-chaining hash map).

Modelling conventions:
* `Vec<Vec<(K, V)>>` becomes `List (List (K × V))`; `usize`/`u64` become `Nat`
  (all sizes involved are far below `2^64`, and the only wrapping-relevant
  operation, `hasher.finish() % table_size as u64`, is modelled by `Nat.mod`).
* The `DefaultHasher` output for a key is an arbitrary function `hash : K → Nat`,
  passed explicitly; it is deterministic within a table, as in one process run.
* A Rust panic (here: `%` with divisor `0` in `hash_index`, which also shields
  the subsequent out-of-bounds index) is modelled by an `Option`-valued result:
  `none` means the call faults, `some r` means it returns `r` normally.
* Mutating methods return the updated map together with the Rust return value.
-/

namespace MfdHashmap

structure HashMap (K V : Type) where
  buckets : List (List (K × V))
  items : Nat
deriving DecidableEq, Repr

variable {K V : Type} [DecidableEq K]

/-- `HashMap::new`: zero buckets, zero items. -/
def HashMap.new : HashMap K V := ⟨[], 0⟩

/-- `HashMap::hash_index`: `hasher.finish() % table_size as u64`.  Returns
`none` (panic: remainder with divisor zero) when `table_size = 0`. -/
def HashMap.hash_index (hash : K → Nat) (key : K) (table_size : Nat) : Option Nat :=
  if table_size = 0 then none else some (hash key % table_size)

/-- `new_buckets[index].push((key, value))`: append `kv` to the `i`-th inner
list.  (`List.set` leaves the list unchanged when `i` is out of range; every
use below has `i < bs.length`.) -/
def pushAt (bs : List (List (K × V))) (i : Nat) (kv : K × V) : List (List (K × V)) :=
  bs.set i (bs.getD i [] ++ [kv])

/-- `HashMap::resize`: pick `target_size` (1 from zero buckets, else double),
allocate `target_size` empty buckets, then drain all old entries in order and
push each into the new array at `hash_index(key, new_buckets.len())`.  The
fold keeps `bs.length = target_size ≥ 1`, so the `%` divisor is never zero
and the direct `hash kv.1 % bs.length` coincides with `hash_index`. -/
def HashMap.resize (hash : K → Nat) (m : HashMap K V) : HashMap K V :=
  let target_size := match m.buckets.length with
    | 0 => 1
    | n => n * 2
  ⟨m.buckets.flatten.foldl (fun bs kv => pushAt bs (hash kv.1 % bs.length) kv)
      (List.replicate target_size []), m.items⟩

/-- The bucket scan of `HashMap::insert`: look for the first entry whose key
equals `key`; if found, replace its value in place (`mem::replace`) and return
the updated bucket with the previous value; otherwise `none`. -/
def replaceInBucket (key : K) (value : V) : List (K × V) → Option (List (K × V) × V)
  | [] => none
  | (k, v) :: rest =>
    if k = key then some ((k, value) :: rest, v)
    else match replaceInBucket key value rest with
      | some (rest', old) => some ((k, v) :: rest', old)
      | none => none

/-- `HashMap::insert`: increment `items`, resize when
`items > buckets.len() * 3 / 4`, then locate the bucket and either replace the
matching entry's value in place (returning the previous value) or push the new
entry (returning `None`). -/
def HashMap.insert (hash : K → Nat) (m : HashMap K V) (key : K) (value : V) :
    Option (HashMap K V × Option V) :=
  let m1 : HashMap K V := ⟨m.buckets, m.items + 1⟩
  let m2 := if m1.items > m1.buckets.length * 3 / 4 then m1.resize hash else m1
  match HashMap.hash_index hash key m2.buckets.length with
  | none => none
  | some index =>
    let bucket := m2.buckets.getD index []
    match replaceInBucket key value bucket with
    | some (bucket', old) => some (⟨m2.buckets.set index bucket', m2.items⟩, some old)
    | none => some (⟨m2.buckets.set index (bucket ++ [(key, value)]), m2.items⟩, none)

/-- The bucket scan of `HashMap::get`:
`.iter().find(|(k, _)| k == key).map(|(_, v)| v)`. -/
def findValueInBucket (key : K) : List (K × V) → Option V
  | [] => none
  | (k, v) :: rest => if k = key then some v else findValueInBucket key rest

/-- `HashMap::get`: index the bucket array at `hash_index(key, buckets.len())`
and scan that bucket.  Faults (`none`) on a zero-bucket table. -/
def HashMap.get (hash : K → Nat) (m : HashMap K V) (key : K) : Option (Option V) :=
  match HashMap.hash_index hash key m.buckets.length with
  | none => none
  | some index => some (findValueInBucket key (m.buckets.getD index []))

/-- `HashMap::contains_key`: `self.get(key).is_some()`. -/
def HashMap.contains_key (hash : K → Nat) (m : HashMap K V) (key : K) : Option Bool :=
  (m.get hash key).map Option.isSome

/-- The scan of `HashMap::remove`: `bucket.iter().position(|(k, _)| k == key)`
together with the value stored at that position (which `swap_remove` returns). -/
def findEntry (key : K) : List (K × V) → Option (Nat × V)
  | [] => none
  | (k, v) :: rest =>
    if k = key then some (0, v)
    else (findEntry key rest).map (fun p => (p.1 + 1, p.2))

/-- `Vec::swap_remove(i)`: overwrite slot `i` with the last element, then drop
the last slot.  Only used with `i < l.length`. -/
def swapRemove (l : List (K × V)) (i : Nat) : List (K × V) :=
  match l.getLast? with
  | none => []
  | some last => (l.set i last).dropLast

/-- `HashMap::remove`: locate the bucket (faulting on a zero-bucket table),
return `None` untouched when no entry matches, else `swap_remove` the match,
decrement `items`, and return the removed value. -/
def HashMap.remove (hash : K → Nat) (m : HashMap K V) (key : K) :
    Option (HashMap K V × Option V) :=
  match HashMap.hash_index hash key m.buckets.length with
  | none => none
  | some index =>
    let bucket := m.buckets.getD index []
    match findEntry key bucket with
    | none => some (m, none)
    | some (i, v) =>
      some (⟨m.buckets.set index (swapRemove bucket i), m.items - 1⟩, some v)

/-- `HashMap::len`: the `items` field. -/
def HashMap.len (m : HashMap K V) : Nat := m.items

/-- `HashMap::is_empty`: `self.items == 0`. -/
def HashMap.is_empty (m : HashMap K V) : Bool := m.items == 0

/-- Loop body of `Iter::next`, compiled to structural recursion on `fuel`.
Each pass of the Rust `loop` either breaks (yield or exhausted) or increments
`bucket_index`, so `bs.length - bucket_index` passes suffice; `iterNext` below
supplies exactly that fuel, and `iterNext_end` / `iterNext_yield` /
`iterNext_skip` prove the three branches of the source loop. -/
def iterNextFuel : Nat → List (List (K × V)) → Nat → Nat → Option ((K × V) × Nat × Nat)
  | 0, _, _, _ => none
  | fuel + 1, bs, bucket_index, elem_index =>
    match bs[bucket_index]? with
    | none => none
    | some bucket =>
      match bucket[elem_index]? with
      | some kv => some (kv, bucket_index, elem_index + 1)
      | none => iterNextFuel fuel bs (bucket_index + 1) 0

/-- `Iter::next`: yield the entry at the cursor if the current bucket still
has one, else move to the next bucket (entry index reset to 0) and retry;
yield nothing once the bucket index runs past the bucket array.  Returns the
yielded `(key, value)` together with the updated cursor; the buckets are only
read, never changed. -/
def iterNext (bs : List (List (K × V))) (bucket_index elem_index : Nat) :
    Option ((K × V) × Nat × Nat) :=
  iterNextFuel (bs.length - bucket_index) bs bucket_index elem_index

/-- The entries a cursor at `(bucket_index, elem_index)` has yet to visit:
the rest of the current bucket, then all later buckets. -/
def seqFrom (bs : List (List (K × V))) (bucket_index elem_index : Nat) : List (K × V) :=
  (bs.getD bucket_index []).drop elem_index ++ (bs.drop (bucket_index + 1)).flatten

/-- Repeatedly call `Iter::next` and collect the yields, with `fuel` bounding
the number of yields (each yield consumes one entry of `seqFrom`). -/
def iterListFuel : Nat → List (List (K × V)) → Nat → Nat → List (K × V)
  | 0, _, _, _ => []
  | fuel + 1, bs, bucket_index, elem_index =>
    match iterNext bs bucket_index elem_index with
    | none => []
    | some (kv, s) => kv :: iterListFuel fuel bs s.1 s.2

/-- The full sequence of entries yielded by driving `Iter::next` from the
cursor `(bucket_index, elem_index)` until it yields nothing. -/
def iterList (bs : List (List (K × V))) (bucket_index elem_index : Nat) : List (K × V) :=
  iterListFuel (seqFrom bs bucket_index elem_index).length bs bucket_index elem_index

/-- All entries of the table, in bucket order then intra-bucket order. -/
def HashMap.entries (m : HashMap K V) : List (K × V) := m.buckets.flatten

/-- Number of entries actually stored across all buckets. -/
def HashMap.entriesCount (m : HashMap K V) : Nat := m.entries.length

/-- The value associated to `key` anywhere in the table (first occurrence in
bucket order; unique in any reachable table). -/
def HashMap.tableLookup (m : HashMap K V) (key : K) : Option V :=
  findValueInBucket key m.entries

/-- Every entry sits in the bucket selected by `hash_index` for the current
bucket-array length. -/
def HashMap.goodIdx (hash : K → Nat) (m : HashMap K V) : Prop :=
  ∀ i : Nat, ∀ kv ∈ m.buckets.getD i [], hash kv.1 % m.buckets.length = i

/-- No two stored entries share a key. -/
def HashMap.keysNodup (m : HashMap K V) : Prop :=
  (m.entries.map Prod.fst).Nodup

/-- The structural invariant of tables built through the API. -/
def HashMap.Inv (hash : K → Nat) (m : HashMap K V) : Prop :=
  m.goodIdx hash ∧ m.keysNodup

/-- Tables reachable from `HashMap::new` by `insert` and `remove` calls that
return normally, indexed by the number of `insert` calls that overwrote an
existing key (returned `Some`). -/
inductive ReachableN (hash : K → Nat) : Nat → HashMap K V → Prop
  | new : ReachableN hash 0 HashMap.new
  | insert {n : Nat} {m m' : HashMap K V} {k : K} {v : V} {old : Option V} :
      ReachableN hash n m → m.insert hash k v = some (m', old) →
      ReachableN hash (n + if old.isSome then 1 else 0) m'
  | remove {n : Nat} {m m' : HashMap K V} {k : K} {old : Option V} :
      ReachableN hash n m → m.remove hash k = some (m', old) →
      ReachableN hash n m'

/-- Tables reachable from `HashMap::new` through the API. -/
def Reachable (hash : K → Nat) (m : HashMap K V) : Prop :=
  ∃ n, ReachableN hash n m

/-- Tables reachable from `HashMap::new` by `insert` calls alone. -/
inductive InsertReach (hash : K → Nat) : HashMap K V → Prop
  | new : InsertReach hash HashMap.new
  | insert {m m' : HashMap K V} {k : K} {v : V} {old : Option V} :
      InsertReach hash m → m.insert hash k v = some (m', old) →
      InsertReach hash m'

/-! ### List helper lemmas -/

theorem getD_set_self {bs : List (List (K × V))} {i : Nat} (h : i < bs.length)
    (x : List (K × V)) : (bs.set i x).getD i [] = x := by
  rw [List.getD_eq_getElem?_getD, List.getElem?_set_self]
  · rfl
  · simpa using h

theorem getD_set_ne {bs : List (List (K × V))} {i j : Nat} (h : j ≠ i)
    (x : List (K × V)) : (bs.set i x).getD j [] = bs.getD j [] := by
  rw [List.getD_eq_getElem?_getD, List.getElem?_set_ne (by omega),
    ← List.getD_eq_getElem?_getD]

theorem mem_getD_flatten {bs : List (List (K × V))} {kv : K × V} {i : Nat}
    (h : kv ∈ bs.getD i []) : kv ∈ bs.flatten := by
  rcases Nat.lt_or_ge i bs.length with hi | hi
  · rw [List.getD_eq_getElem _ _ hi] at h
    exact List.mem_flatten.mpr ⟨bs[i], List.getElem_mem hi, h⟩
  · rw [List.getD_eq_default _ _ hi] at h
    cases h

theorem mem_flatten_getD {bs : List (List (K × V))} {kv : K × V}
    (h : kv ∈ bs.flatten) : ∃ i, i < bs.length ∧ kv ∈ bs.getD i [] := by
  rcases List.mem_flatten.mp h with ⟨b, hb, hkv⟩
  rcases List.getElem_of_mem hb with ⟨i, hi, rfl⟩
  exact ⟨i, hi, by rwa [List.getD_eq_getElem _ _ hi]⟩

theorem flatten_decomp {bs : List (List (K × V))} {i : Nat} (h : i < bs.length) :
    bs.flatten = (bs.take i).flatten ++ bs.getD i [] ++ (bs.drop (i + 1)).flatten := by
  conv_lhs => rw [← List.take_append_drop i bs]
  rw [List.drop_eq_getElem_cons h, List.flatten_append, List.flatten_cons,
    List.getD_eq_getElem _ _ h, List.append_assoc]

theorem flatten_set {bs : List (List (K × V))} {i : Nat} (h : i < bs.length)
    (x : List (K × V)) :
    (bs.set i x).flatten = (bs.take i).flatten ++ x ++ (bs.drop (i + 1)).flatten := by
  rw [List.set_eq_take_cons_drop _ h, List.flatten_append, List.flatten_cons,
    List.append_assoc]

theorem append_middle_perm {α : Type} (t g d : List α) (x : α) :
    (t ++ (g ++ [x]) ++ d).Perm ((t ++ g ++ d) ++ [x]) := by
  simp only [List.append_assoc]
  exact List.Perm.append_left t
    (List.Perm.append_left g (by simpa using @List.perm_append_comm _ [x] d))

theorem flatten_drop_succ (bs : List (List (K × V))) (i : Nat) :
    (bs.drop i).flatten = bs.getD i [] ++ (bs.drop (i + 1)).flatten := by
  rcases Nat.lt_or_ge i bs.length with hi | hi
  · rw [List.drop_eq_getElem_cons hi, List.flatten_cons, List.getD_eq_getElem _ _ hi]
  · rw [List.drop_eq_nil_of_le hi, List.drop_eq_nil_of_le (by omega),
      List.getD_eq_default _ _ hi]
    rfl

/-! ### Bucket-scan lemmas -/

theorem findValueInBucket_eq_none {key : K} :
    ∀ {l : List (K × V)}, findValueInBucket key l = none ↔ key ∉ l.map Prod.fst
  | [] => by simp [findValueInBucket]
  | (a, b) :: rest => by
    by_cases hak : a = key
    · subst hak
      simp [findValueInBucket]
    · simp only [findValueInBucket, if_neg hak, List.map_cons, List.mem_cons]
      rw [findValueInBucket_eq_none]
      constructor
      · rintro h (rfl | h2)
        · exact hak rfl
        · exact h h2
      · intro h h2
        exact h (Or.inr h2)

theorem findValueInBucket_mem {key : K} {v : V} :
    ∀ {l : List (K × V)}, findValueInBucket key l = some v → (key, v) ∈ l
  | [] => by simp [findValueInBucket]
  | (a, b) :: rest => by
    rw [findValueInBucket]
    by_cases hak : a = key
    · rw [if_pos hak]
      intro h
      have hb : b = v := by injection h
      subst hb
      subst hak
      exact List.mem_cons_self _ _
    · rw [if_neg hak]
      intro h
      exact List.mem_cons_of_mem _ (findValueInBucket_mem h)

theorem findValueInBucket_of_mem {key : K} {v : V} :
    ∀ {l : List (K × V)}, (l.map Prod.fst).Nodup → (key, v) ∈ l →
      findValueInBucket key l = some v
  | [], _, h => by cases h
  | (a, b) :: rest, hnd, h => by
    rcases List.mem_cons.mp h with heq | hmem
    · rw [Prod.mk.injEq] at heq
      simp [findValueInBucket, heq.1, heq.2]
    · have hak : a ≠ key := by
        rintro rfl
        have : a ∈ rest.map Prod.fst := List.mem_map.mpr ⟨(a, v), hmem, rfl⟩
        exact (List.nodup_cons.mp (by simpa using hnd)).1 this
      simp only [findValueInBucket, if_neg hak]
      exact findValueInBucket_of_mem (List.nodup_cons.mp (by simpa using hnd)).2 hmem

theorem findValueInBucket_perm {key : K} {l l' : List (K × V)}
    (hnd : (l.map Prod.fst).Nodup) (hp : l.Perm l') :
    findValueInBucket key l = findValueInBucket key l' := by
  have hnd' : (l'.map Prod.fst).Nodup := (hp.map Prod.fst).nodup_iff.mp hnd
  cases hfv : findValueInBucket key l with
  | none =>
    rw [findValueInBucket_eq_none] at hfv
    rw [eq_comm, findValueInBucket_eq_none]
    intro hmem
    exact hfv (((hp.map Prod.fst).mem_iff).mpr hmem)
  | some v =>
    rw [eq_comm]
    exact findValueInBucket_of_mem hnd' (hp.mem_iff.mp (findValueInBucket_mem hfv))

theorem findValueInBucket_append {key : K} :
    ∀ (l₁ l₂ : List (K × V)), findValueInBucket key (l₁ ++ l₂) =
      match findValueInBucket key l₁ with
      | some v => some v
      | none => findValueInBucket key l₂
  | [], l₂ => by simp [findValueInBucket]
  | (a, b) :: rest, l₂ => by
    by_cases hak : a = key
    · simp [findValueInBucket, hak]
    · simp only [List.cons_append, findValueInBucket, if_neg hak]
      exact findValueInBucket_append rest l₂

theorem replaceInBucket_eq_none {key : K} {value : V} :
    ∀ {l : List (K × V)}, replaceInBucket key value l = none ↔
      findValueInBucket key l = none
  | [] => by simp [replaceInBucket, findValueInBucket]
  | (a, b) :: rest => by
    by_cases hak : a = key
    · simp [replaceInBucket, findValueInBucket, hak]
    · simp only [replaceInBucket, findValueInBucket, if_neg hak]
      rw [← @replaceInBucket_eq_none key value rest]
      cases replaceInBucket key value rest <;> simp

theorem replaceInBucket_spec {key : K} {value : V} {old : V} :
    ∀ {l l' : List (K × V)}, replaceInBucket key value l = some (l', old) →
      findValueInBucket key l = some old ∧
      l'.map Prod.fst = l.map Prod.fst ∧
      l'.length = l.length ∧
      findValueInBucket key l' = some value ∧
      (∀ k', k' ≠ key → findValueInBucket k' l' = findValueInBucket k' l)
  | [], l', h => by simp [replaceInBucket] at h
  | (a, b) :: rest, l', h => by
    rw [replaceInBucket] at h
    by_cases hak : a = key
    · rw [if_pos hak] at h
      simp only [Option.some.injEq, Prod.mk.injEq] at h
      obtain ⟨rfl, rfl⟩ := h
      refine ⟨by rw [findValueInBucket, if_pos hak], by simp, by simp,
        by rw [findValueInBucket, if_pos hak], ?_⟩
      intro k' hk'
      have hak' : a ≠ k' := by rw [hak]; exact fun he => hk' he.symm
      rw [findValueInBucket, findValueInBucket, if_neg hak', if_neg hak']
    · rw [if_neg hak] at h
      cases hre : replaceInBucket key value rest with
      | none => rw [hre] at h; cases h
      | some p =>
        obtain ⟨rest', old'⟩ := p
        rw [hre] at h
        simp only [Option.some.injEq, Prod.mk.injEq] at h
        obtain ⟨rfl, rfl⟩ := h
        obtain ⟨ih1, ih2, ih3, ih4, ih5⟩ := replaceInBucket_spec hre
        refine ⟨by rw [findValueInBucket, if_neg hak]; exact ih1,
          by simp [ih2], by simp [ih3],
          by rw [findValueInBucket, if_neg hak]; exact ih4, ?_⟩
        intro k' hk'
        rw [findValueInBucket, findValueInBucket]
        by_cases hak' : a = k'
        · rw [if_pos hak', if_pos hak']
        · rw [if_neg hak', if_neg hak']
          exact ih5 k' hk'

theorem findEntry_map_snd {key : K} :
    ∀ {l : List (K × V)}, (findEntry key l).map Prod.snd = findValueInBucket key l
  | [] => rfl
  | (a, b) :: rest => by
    rw [findEntry, findValueInBucket]
    by_cases hak : a = key
    · rw [if_pos hak, if_pos hak]
      rfl
    · rw [if_neg hak, if_neg hak, ← @findEntry_map_snd key rest]
      cases findEntry key rest <;> rfl

theorem findEntry_getElem {key : K} {v : V} :
    ∀ {l : List (K × V)} {i : Nat}, findEntry key l = some (i, v) →
      l[i]? = some (key, v)
  | [], i, h => by simp [findEntry] at h
  | (a, b) :: rest, i, h => by
    rw [findEntry] at h
    by_cases hak : a = key
    · rw [if_pos hak] at h
      simp only [Option.some.injEq, Prod.mk.injEq] at h
      obtain ⟨rfl, rfl⟩ := h
      rw [hak]
      simp
    · rw [if_neg hak] at h
      cases hfe : findEntry key rest with
      | none => rw [hfe] at h; cases h
      | some p =>
        obtain ⟨j, w⟩ := p
        rw [hfe] at h
        simp only [Option.map_some', Option.some.injEq, Prod.mk.injEq] at h
        obtain ⟨rfl, rfl⟩ := h
        simpa using findEntry_getElem hfe

theorem getLast?_cons_dropLast_perm {y : K × V} :
    ∀ {l : List (K × V)}, l.getLast? = some y → (y :: l.dropLast).Perm l
  | [], h => by simp at h
  | [a], h => by
    simp only [List.getLast?_singleton, Option.some.injEq] at h
    subst h
    rfl
  | a :: b :: rest, h => by
    rw [show (a :: b :: rest).getLast? = (b :: rest).getLast? from rfl] at h
    have IH := getLast?_cons_dropLast_perm h
    rw [show (a :: b :: rest).dropLast = a :: (b :: rest).dropLast from rfl]
    exact (List.Perm.swap a y _).trans (IH.cons a)

theorem swapRemove_perm {x : K × V} :
    ∀ {l : List (K × V)} {i : Nat}, l[i]? = some x → (x :: swapRemove l i).Perm l
  | [], i, h => by simp at h
  | a :: tail, 0, h => by
    have hx : x = a := by simpa using h.symm
    subst hx
    cases tail with
    | nil => rfl
    | cons b rest =>
      rw [show swapRemove (x :: b :: rest) 0 =
          ((x :: b :: rest).set 0 ((b :: rest).getLast (by simp))).dropLast by
        rw [swapRemove, show (x :: b :: rest).getLast? =
          some ((b :: rest).getLast (by simp)) by
            rw [show (x :: b :: rest).getLast? = (b :: rest).getLast? from rfl,
              List.getLast?_eq_getLast]]]
      rw [List.set_cons_zero, show ((b :: rest).getLast (by simp) :: b :: rest).dropLast =
        (b :: rest).getLast (by simp) :: (b :: rest).dropLast from rfl]
      exact List.Perm.cons x (getLast?_cons_dropLast_perm (List.getLast?_eq_getLast _ _))
  | a :: tail, i + 1, h => by
    have h' : tail[i]? = some x := by simpa using h
    have htail : tail ≠ [] := by
      intro he
      rw [he] at h'
      simp at h'
    obtain ⟨b, rest, rfl⟩ := List.exists_cons_of_ne_nil htail
    have hy := List.getLast?_eq_getLast (b :: rest) (by simp)
    have hkey : swapRemove (a :: b :: rest) (i + 1) = a :: swapRemove (b :: rest) i := by
      rw [swapRemove, swapRemove,
        show (a :: b :: rest).getLast? = (b :: rest).getLast? from rfl, hy]
      show ((a :: b :: rest).set (i + 1) _).dropLast =
        a :: ((b :: rest).set i _).dropLast
      rw [List.set_cons_succ]
      obtain ⟨c, l', hc⟩ : ∃ c l', (b :: rest).set i ((b :: rest).getLast (by simp)) =
          c :: l' := by
        cases i with
        | zero => exact ⟨_, _, rfl⟩
        | succ j => exact ⟨_, _, rfl⟩
      rw [hc]
      rfl
    rw [hkey]
    exact (List.Perm.swap a x _).trans ((swapRemove_perm h').cons a)

/-! ### `hash_index` and `resize` lemmas -/

theorem hash_index_pos (hash : K → Nat) (key : K) {n : Nat} (h : 0 < n) :
    HashMap.hash_index hash key n = some (hash key % n) := by
  rw [HashMap.hash_index, if_neg (by omega)]

theorem hash_index_zero (hash : K → Nat) (key : K) :
    HashMap.hash_index hash key 0 = none := rfl

theorem foldl_rehash_length (hash : K → Nat) :
    ∀ (l : List (K × V)) (bs : List (List (K × V))),
      (l.foldl (fun bs kv => pushAt bs (hash kv.1 % bs.length) kv) bs).length =
        bs.length
  | [], _ => rfl
  | kv :: l, bs => by
    rw [List.foldl_cons, foldl_rehash_length hash l]
    simp [pushAt]

theorem pushAt_flatten_perm {bs : List (List (K × V))} {i : Nat} (h : i < bs.length)
    (kv : K × V) : (pushAt bs i kv).flatten.Perm (bs.flatten ++ [kv]) := by
  rw [pushAt, flatten_set h]
  conv_rhs => rw [flatten_decomp h]
  exact append_middle_perm _ _ _ _

theorem foldl_rehash_flatten_perm (hash : K → Nat) :
    ∀ (l : List (K × V)) (bs : List (List (K × V))), 0 < bs.length →
      ((l.foldl (fun bs kv => pushAt bs (hash kv.1 % bs.length) kv) bs).flatten).Perm
        (bs.flatten ++ l)
  | [], bs, _ => by simp
  | kv :: l, bs, h => by
    rw [List.foldl_cons]
    have h1 : (pushAt bs (hash kv.1 % bs.length) kv).flatten.Perm (bs.flatten ++ [kv]) :=
      pushAt_flatten_perm (Nat.mod_lt _ h) kv
    have h2 := foldl_rehash_flatten_perm hash l
      (pushAt bs (hash kv.1 % bs.length) kv) (by simpa [pushAt] using h)
    refine h2.trans ((h1.append_right l).trans ?_)
    rw [List.append_assoc, List.singleton_append]

theorem foldl_rehash_goodIdx (hash : K → Nat) :
    ∀ (l : List (K × V)) (bs : List (List (K × V))), 0 < bs.length →
      (∀ i : Nat, ∀ kv ∈ bs.getD i [], hash kv.1 % bs.length = i) →
      ∀ i : Nat, ∀ kv ∈
        (l.foldl (fun bs kv => pushAt bs (hash kv.1 % bs.length) kv) bs).getD i [],
        hash kv.1 %
          (l.foldl (fun bs kv => pushAt bs (hash kv.1 % bs.length) kv) bs).length = i
  | [], _, _, hinv => hinv
  | kv :: l, bs, hpos, hinv => by
    rw [List.foldl_cons]
    apply foldl_rehash_goodIdx hash l _ (by simpa [pushAt] using hpos)
    intro i kv' hmem
    rw [show (pushAt bs (hash kv.1 % bs.length) kv).length = bs.length by simp [pushAt]]
    by_cases hii : i = hash kv.1 % bs.length
    · subst hii
      rw [pushAt, getD_set_self (Nat.mod_lt _ hpos)] at hmem
      rcases List.mem_append.mp hmem with hmem | hmem
      · exact hinv _ kv' hmem
      · rw [List.mem_singleton.mp hmem]
    · rw [pushAt, getD_set_ne hii] at hmem
      exact hinv _ kv' hmem

theorem resize_spec (hash : K → Nat) (m : HashMap K V) :
    (m.resize hash).items = m.items ∧
    (m.resize hash).buckets.length =
      (match m.buckets.length with | 0 => 1 | n => n * 2) ∧
    0 < (m.resize hash).buckets.length ∧
    (m.resize hash).entries.Perm m.entries ∧
    (m.resize hash).goodIdx hash := by
  have htpos : 0 < (match m.buckets.length with | 0 => 1 | n => n * 2) := by
    cases m.buckets.length <;> simp
  have hrep : (List.replicate (match m.buckets.length with | 0 => 1 | n => n * 2)
      ([] : List (K × V))).length =
      (match m.buckets.length with | 0 => 1 | n => n * 2) := List.length_replicate _ _
  have hlen : (m.resize hash).buckets.length =
      (match m.buckets.length with | 0 => 1 | n => n * 2) := by
    rw [HashMap.resize]
    rw [foldl_rehash_length]
    exact hrep
  refine ⟨rfl, hlen, by omega, ?_, ?_⟩
  · have := foldl_rehash_flatten_perm hash m.buckets.flatten
      (List.replicate (match m.buckets.length with | 0 => 1 | n => n * 2) [])
      (by rw [hrep]; exact htpos)
    rw [show (List.replicate (match m.buckets.length with | 0 => 1 | n => n * 2)
      ([] : List (K × V))).flatten = [] by simp] at this
    exact this
  · intro i kv hmem
    refine foldl_rehash_goodIdx hash m.buckets.flatten _ (by rw [hrep]; exact htpos)
      ?_ i kv hmem
    intro j kv' hmem'
    rw [List.getD_eq_getElem?_getD, List.getElem?_getD_replicate_default_eq] at hmem'
    cases hmem'

/-! ### Map-level lookup lemmas -/

theorem lookup_bucket (hash : K → Nat) {m : HashMap K V} (hInv : m.Inv hash)
    (key : K) :
    m.tableLookup key =
      findValueInBucket key (m.buckets.getD (hash key % m.buckets.length) []) := by
  obtain ⟨hIdx, hNd⟩ := hInv
  cases hfb : findValueInBucket key (m.buckets.getD (hash key % m.buckets.length) [])
    with
  | some v =>
    exact findValueInBucket_of_mem hNd (mem_getD_flatten (findValueInBucket_mem hfb))
  | none =>
    rw [findValueInBucket_eq_none] at hfb
    rw [HashMap.tableLookup, findValueInBucket_eq_none]
    intro hkmem
    rcases List.mem_map.mp hkmem with ⟨kv, hkv, hfst⟩
    rcases mem_flatten_getD hkv with ⟨i, _, hmem⟩
    have hidx := hIdx i kv hmem
    rw [hfst] at hidx
    rw [← hidx] at hmem
    exact hfb (List.mem_map.mpr ⟨kv, hmem, hfst⟩)

theorem get_eq_tableLookup (hash : K → Nat) {m : HashMap K V} (hInv : m.Inv hash)
    (hpos : 0 < m.buckets.length) (key : K) :
    m.get hash key = some (m.tableLookup key) := by
  rw [HashMap.get, hash_index_pos hash key hpos, lookup_bucket hash hInv key]

theorem resize_inv (hash : K → Nat) {m : HashMap K V} (hInv : m.Inv hash) :
    (m.resize hash).Inv hash ∧
    (∀ key, (m.resize hash).tableLookup key = m.tableLookup key) ∧
    (m.resize hash).entriesCount = m.entriesCount := by
  obtain ⟨_, _, _, hperm, hgood⟩ := resize_spec hash m
  have hnd : (m.resize hash).keysNodup := ((hperm.map Prod.fst).nodup_iff).mpr hInv.2
  exact ⟨⟨hgood, hnd⟩, fun key => findValueInBucket_perm hnd hperm, hperm.length_eq⟩

/-! ### The two branches of `insert` after the bucket is located -/

theorem replace_case_spec (hash : K → Nat) {m2 : HashMap K V} (hInv2 : m2.Inv hash)
    (hpos : 0 < m2.buckets.length) {key : K} {value : V} {b' : List (K × V)} {old : V}
    (hrep : replaceInBucket key value
      (m2.buckets.getD (hash key % m2.buckets.length) []) = some (b', old)) (n : Nat) :
    (HashMap.mk (m2.buckets.set (hash key % m2.buckets.length) b') n).Inv hash ∧
    (m2.buckets.set (hash key % m2.buckets.length) b').length = m2.buckets.length ∧
    (HashMap.mk (m2.buckets.set (hash key % m2.buckets.length) b') n).entriesCount
      = m2.entriesCount ∧
    m2.tableLookup key = some old ∧
    (HashMap.mk (m2.buckets.set (hash key % m2.buckets.length) b') n).tableLookup key
      = some value ∧
    (∀ k', k' ≠ key →
      (HashMap.mk (m2.buckets.set (hash key % m2.buckets.length) b') n).tableLookup k'
        = m2.tableLookup k') := by
  obtain ⟨hfind, hmap, hlenb, hfind', hothers⟩ := replaceInBucket_spec hrep
  have hidx : hash key % m2.buckets.length < m2.buckets.length := Nat.mod_lt _ hpos
  have hlen' : (m2.buckets.set (hash key % m2.buckets.length) b').length =
      m2.buckets.length := List.length_set _ _ _
  have hentries : (m2.buckets.set (hash key % m2.buckets.length) b').flatten =
      (m2.buckets.take (hash key % m2.buckets.length)).flatten ++ b' ++
        (m2.buckets.drop (hash key % m2.buckets.length + 1)).flatten :=
    flatten_set hidx b'
  have hdecomp := flatten_decomp hidx
  have hkeys : ((m2.buckets.set (hash key % m2.buckets.length) b').flatten.map
      Prod.fst) = m2.buckets.flatten.map Prod.fst := by
    rw [hentries]
    conv_rhs => rw [hdecomp]
    simp [hmap]
  have hgood : (HashMap.mk (m2.buckets.set (hash key % m2.buckets.length) b') n).goodIdx
      hash := by
    intro i kv hmem
    show hash kv.1 % (m2.buckets.set (hash key % m2.buckets.length) b').length = i
    rw [hlen']
    by_cases hii : i = hash key % m2.buckets.length
    · subst hii
      rw [getD_set_self hidx] at hmem
      have : kv.1 ∈ b'.map Prod.fst := List.mem_map_of_mem Prod.fst hmem
      rw [hmap] at this
      rcases List.mem_map.mp this with ⟨kv0, hkv0, hf⟩
      have := hInv2.1 _ kv0 hkv0
      rw [hf] at this
      exact this
    · rw [getD_set_ne hii] at hmem
      exact hInv2.1 i kv hmem
  have hnd : (HashMap.mk (m2.buckets.set (hash key % m2.buckets.length) b') n).keysNodup
      := by
    show ((m2.buckets.set (hash key % m2.buckets.length) b').flatten.map Prod.fst).Nodup
    rw [hkeys]
    exact hInv2.2
  have hInv' : (HashMap.mk (m2.buckets.set (hash key % m2.buckets.length) b') n).Inv hash
      := ⟨hgood, hnd⟩
  have hlook2 : m2.tableLookup key = some old := by
    rw [lookup_bucket hash hInv2 key]
    exact hfind
  refine ⟨hInv', hlen', ?_, hlook2, ?_, ?_⟩
  · show (m2.buckets.set (hash key % m2.buckets.length) b').flatten.length =
      m2.buckets.flatten.length
    rw [hentries]
    conv_rhs => rw [hdecomp]
    simp [hlenb]
  · rw [lookup_bucket hash hInv' key]
    show findValueInBucket key ((m2.buckets.set (hash key % m2.buckets.length) b').getD
      (hash key % (m2.buckets.set (hash key % m2.buckets.length) b').length) []) =
      some value
    rw [hlen', getD_set_self hidx]
    exact hfind'
  · intro k' hk'
    rw [lookup_bucket hash hInv' k', lookup_bucket hash hInv2 k']
    show findValueInBucket k' ((m2.buckets.set (hash key % m2.buckets.length) b').getD
      (hash k' % (m2.buckets.set (hash key % m2.buckets.length) b').length) []) =
      findValueInBucket k' (m2.buckets.getD (hash k' % m2.buckets.length) [])
    rw [hlen']
    by_cases hii : hash k' % m2.buckets.length = hash key % m2.buckets.length
    · rw [hii, getD_set_self hidx]
      exact hothers k' hk'
    · rw [getD_set_ne hii]

theorem append_case_spec (hash : K → Nat) {m2 : HashMap K V} (hInv2 : m2.Inv hash)
    (hpos : 0 < m2.buckets.length) {key : K} {value : V}
    (hrep : replaceInBucket key value
      (m2.buckets.getD (hash key % m2.buckets.length) []) = none) (n : Nat) :
    (HashMap.mk (m2.buckets.set (hash key % m2.buckets.length)
      (m2.buckets.getD (hash key % m2.buckets.length) [] ++ [(key, value)])) n).Inv hash ∧
    (m2.buckets.set (hash key % m2.buckets.length)
      (m2.buckets.getD (hash key % m2.buckets.length) [] ++ [(key, value)])).length
      = m2.buckets.length ∧
    (HashMap.mk (m2.buckets.set (hash key % m2.buckets.length)
      (m2.buckets.getD (hash key % m2.buckets.length) [] ++ [(key, value)])) n).entriesCount
      = m2.entriesCount + 1 ∧
    m2.tableLookup key = none ∧
    (HashMap.mk (m2.buckets.set (hash key % m2.buckets.length)
      (m2.buckets.getD (hash key % m2.buckets.length) [] ++ [(key, value)])) n).tableLookup
      key = some value ∧
    (∀ k', k' ≠ key →
      (HashMap.mk (m2.buckets.set (hash key % m2.buckets.length)
        (m2.buckets.getD (hash key % m2.buckets.length) [] ++ [(key, value)])) n).tableLookup
        k' = m2.tableLookup k') := by
  have hfbnone : findValueInBucket key
      (m2.buckets.getD (hash key % m2.buckets.length) []) = none :=
    replaceInBucket_eq_none.mp hrep
  have hidx : hash key % m2.buckets.length < m2.buckets.length := Nat.mod_lt _ hpos
  set bucket := m2.buckets.getD (hash key % m2.buckets.length) [] with hbucket
  set b' := bucket ++ [(key, value)] with hb'
  have hlen' : (m2.buckets.set (hash key % m2.buckets.length) b').length =
      m2.buckets.length := List.length_set _ _ _
  have hentries : (m2.buckets.set (hash key % m2.buckets.length) b').flatten =
      (m2.buckets.take (hash key % m2.buckets.length)).flatten ++ b' ++
        (m2.buckets.drop (hash key % m2.buckets.length + 1)).flatten :=
    flatten_set hidx b'
  have hdecomp := flatten_decomp hidx
  rw [← hbucket] at hdecomp
  have hlook2 : m2.tableLookup key = none := by
    rw [lookup_bucket hash hInv2 key]
    exact hfbnone
  have hnokey : key ∉ m2.buckets.flatten.map Prod.fst := by
    rw [← @findValueInBucket_eq_none K V _ key m2.buckets.flatten]
    exact hlook2
  have hkeysperm : ((m2.buckets.set (hash key % m2.buckets.length) b').flatten.map
      Prod.fst).Perm (key :: m2.buckets.flatten.map Prod.fst) := by
    rw [hentries, hb']
    conv_rhs => rw [hdecomp]
    simp only [List.map_append, List.map_cons, List.map_nil]
    refine (append_middle_perm _ _ _ key).trans ?_
    exact List.perm_append_comm
  have hgood : (HashMap.mk (m2.buckets.set (hash key % m2.buckets.length) b') n).goodIdx
      hash := by
    intro i kv hmem
    show hash kv.1 % (m2.buckets.set (hash key % m2.buckets.length) b').length = i
    rw [hlen']
    by_cases hii : i = hash key % m2.buckets.length
    · subst hii
      rw [getD_set_self hidx] at hmem
      rcases List.mem_append.mp hmem with hmem | hmem
      · exact hInv2.1 _ kv hmem
      · rw [List.mem_singleton.mp hmem]
    · rw [getD_set_ne hii] at hmem
      exact hInv2.1 i kv hmem
  have hnd : (HashMap.mk (m2.buckets.set (hash key % m2.buckets.length) b') n).keysNodup
      := by
    show ((m2.buckets.set (hash key % m2.buckets.length) b').flatten.map Prod.fst).Nodup
    rw [hkeysperm.nodup_iff]
    exact List.nodup_cons.mpr ⟨hnokey, hInv2.2⟩
  have hInv' : (HashMap.mk (m2.buckets.set (hash key % m2.buckets.length) b') n).Inv hash
      := ⟨hgood, hnd⟩
  refine ⟨hInv', hlen', ?_, hlook2, ?_, ?_⟩
  · show (m2.buckets.set (hash key % m2.buckets.length) b').flatten.length =
      m2.buckets.flatten.length + 1
    rw [hentries, hb']
    conv_rhs => rw [hdecomp]
    simp only [List.length_append, List.length_cons, List.length_nil]
    omega
  · rw [lookup_bucket hash hInv' key]
    show findValueInBucket key ((m2.buckets.set (hash key % m2.buckets.length) b').getD
      (hash key % (m2.buckets.set (hash key % m2.buckets.length) b').length) []) =
      some value
    rw [hlen', getD_set_self hidx, hb', findValueInBucket_append, hfbnone]
    simp [findValueInBucket]
  · intro k' hk'
    rw [lookup_bucket hash hInv' k', lookup_bucket hash hInv2 k']
    show findValueInBucket k' ((m2.buckets.set (hash key % m2.buckets.length) b').getD
      (hash k' % (m2.buckets.set (hash key % m2.buckets.length) b').length) []) =
      findValueInBucket k' (m2.buckets.getD (hash k' % m2.buckets.length) [])
    rw [hlen']
    by_cases hii : hash k' % m2.buckets.length = hash key % m2.buckets.length
    · rw [hii, getD_set_self hidx, hb', findValueInBucket_append, ← hbucket]
      have hk'single : findValueInBucket k' [(key, value)] = none := by
        rw [findValueInBucket, if_neg (fun he => hk' he.symm)]
        rfl
      cases hfb' : findValueInBucket k' bucket with
      | some v => rfl
      | none => rw [hk'single]
    · rw [getD_set_ne hii]

/-! ### `insert` master lemmas -/

/-- Unfolding of `HashMap.insert` with the intermediate `m1` inlined. -/
theorem insert_eq (hash : K → Nat) (m : HashMap K V) (key : K) (value : V) :
    m.insert hash key value =
      (let m2 : HashMap K V :=
        if m.items + 1 > m.buckets.length * 3 / 4
          then HashMap.resize hash ⟨m.buckets, m.items + 1⟩
          else ⟨m.buckets, m.items + 1⟩
      match HashMap.hash_index hash key m2.buckets.length with
      | none => none
      | some index =>
        let bucket := m2.buckets.getD index []
        match replaceInBucket key value bucket with
        | some (bucket', old) =>
            some (⟨m2.buckets.set index bucket', m2.items⟩, some old)
        | none =>
            some (⟨m2.buckets.set index (bucket ++ [(key, value)]), m2.items⟩, none)) :=
  rfl

theorem insert_spec (hash : K → Nat) {m : HashMap K V} (hInv : m.Inv hash)
    (key : K) (value : V) :
    ∃ m', m.insert hash key value = some (m', m.tableLookup key) ∧
      m'.Inv hash ∧
      m'.items = m.items + 1 ∧
      0 < m'.buckets.length ∧
      m'.entriesCount = m.entriesCount +
        (if (m.tableLookup key).isSome then 0 else 1) ∧
      m'.tableLookup key = some value ∧
      (∀ k', k' ≠ key → m'.tableLookup k' = m.tableLookup k') := by
  obtain ⟨m2, heq, hInv2, hlook, hitems, hpos, hcount⟩ :
      ∃ m2 : HashMap K V, m.insert hash key value =
        (match HashMap.hash_index hash key m2.buckets.length with
          | none => none
          | some index =>
            let bucket := m2.buckets.getD index []
            match replaceInBucket key value bucket with
            | some (bucket', old) =>
                some (⟨m2.buckets.set index bucket', m2.items⟩, some old)
            | none =>
                some (⟨m2.buckets.set index (bucket ++ [(key, value)]), m2.items⟩, none))
        ∧ m2.Inv hash ∧ (∀ k, m2.tableLookup k = m.tableLookup k)
        ∧ m2.items = m.items + 1 ∧ 0 < m2.buckets.length
        ∧ m2.entriesCount = m.entriesCount := by
    by_cases hcond : m.items + 1 > m.buckets.length * 3 / 4
    · have hInv1 : (⟨m.buckets, m.items + 1⟩ : HashMap K V).Inv hash := hInv
      obtain ⟨hi, hl, hc⟩ := resize_inv hash hInv1
      obtain ⟨hri, _, hrpos, _, _⟩ := resize_spec hash ⟨m.buckets, m.items + 1⟩
      refine ⟨HashMap.resize hash ⟨m.buckets, m.items + 1⟩, ?_, hi, hl, hri, hrpos, hc⟩
      rw [insert_eq, if_pos hcond]
    · refine ⟨⟨m.buckets, m.items + 1⟩, ?_, hInv, fun k => rfl, rfl, ?_, rfl⟩
      · rw [insert_eq, if_neg hcond]
      · rcases Nat.eq_zero_or_pos m.buckets.length with h0 | h0
        · rw [h0] at hcond
          omega
        · exact h0
  rw [heq]
  cases hrep : replaceInBucket key value
      (m2.buckets.getD (hash key % m2.buckets.length) []) with
  | some p =>
    obtain ⟨b', old⟩ := p
    obtain ⟨hInv', hlen', hcount', hlookold, hlookkey, hlookothers⟩ :=
      replace_case_spec hash hInv2 hpos hrep m2.items
    refine ⟨⟨m2.buckets.set (hash key % m2.buckets.length) b', m2.items⟩, ?_, hInv',
      hitems, ?_, ?_, hlookkey, ?_⟩
    · simp only [hash_index_pos hash key hpos, hrep]
      rw [← hlook key, hlookold]
    · show 0 < (m2.buckets.set (hash key % m2.buckets.length) b').length
      rw [hlen']
      exact hpos
    · rw [hcount', hcount, ← hlook key, hlookold]
      rfl
    · intro k' hk'
      exact (hlookothers k' hk').trans (hlook k')
  | none =>
    obtain ⟨hInv', hlen', hcount', hlooknone, hlookkey, hlookothers⟩ :=
      append_case_spec hash hInv2 hpos hrep m2.items
    refine ⟨⟨m2.buckets.set (hash key % m2.buckets.length)
      (m2.buckets.getD (hash key % m2.buckets.length) [] ++ [(key, value)]),
      m2.items⟩, ?_, hInv', hitems, ?_, ?_, hlookkey, ?_⟩
    · simp only [hash_index_pos hash key hpos, hrep]
      rw [← hlook key, hlooknone]
    · show 0 < (m2.buckets.set (hash key % m2.buckets.length)
        (m2.buckets.getD (hash key % m2.buckets.length) [] ++ [(key, value)])).length
      rw [hlen']
      exact hpos
    · rw [hcount', hcount, ← hlook key, hlooknone]
      rfl
    · intro k' hk'
      exact (hlookothers k' hk').trans (hlook k')

/-- `insert` always returns normally (it resizes before indexing whenever the
table has zero buckets), increments `items` by exactly one, and leaves a
non-empty bucket array whose length follows the resize formula.  No
invariant on the input table is needed. -/
theorem insert_step (hash : K → Nat) (m : HashMap K V) (key : K) (value : V) :
    ∃ m' old, m.insert hash key value = some (m', old) ∧
      m'.items = m.items + 1 ∧
      m'.buckets.length =
        (if m.items + 1 > m.buckets.length * 3 / 4
          then (match m.buckets.length with | 0 => 1 | n => n * 2)
          else m.buckets.length) ∧
      0 < m'.buckets.length := by
  obtain ⟨m2, heq, hitems, hlen, hpos⟩ :
      ∃ m2 : HashMap K V, m.insert hash key value =
        (match HashMap.hash_index hash key m2.buckets.length with
          | none => none
          | some index =>
            let bucket := m2.buckets.getD index []
            match replaceInBucket key value bucket with
            | some (bucket', old) =>
                some (⟨m2.buckets.set index bucket', m2.items⟩, some old)
            | none =>
                some (⟨m2.buckets.set index (bucket ++ [(key, value)]), m2.items⟩, none))
        ∧ m2.items = m.items + 1
        ∧ m2.buckets.length =
          (if m.items + 1 > m.buckets.length * 3 / 4
            then (match m.buckets.length with | 0 => 1 | n => n * 2)
            else m.buckets.length)
        ∧ 0 < m2.buckets.length := by
    by_cases hcond : m.items + 1 > m.buckets.length * 3 / 4
    · obtain ⟨hri, hrlen, hrpos, _, _⟩ := resize_spec hash ⟨m.buckets, m.items + 1⟩
      refine ⟨HashMap.resize hash ⟨m.buckets, m.items + 1⟩, ?_, hri, ?_, hrpos⟩
      · rw [insert_eq, if_pos hcond]
      · rw [if_pos hcond]
        exact hrlen
    · refine ⟨⟨m.buckets, m.items + 1⟩, ?_, rfl, ?_, ?_⟩
      · rw [insert_eq, if_neg hcond]
      · rw [if_neg hcond]
      · rcases Nat.eq_zero_or_pos m.buckets.length with h0 | h0
        · rw [h0] at hcond
          omega
        · exact h0
  rw [heq]
  cases hrep : replaceInBucket key value
      (m2.buckets.getD (hash key % m2.buckets.length) []) with
  | some p =>
    obtain ⟨b', old⟩ := p
    refine ⟨⟨m2.buckets.set (hash key % m2.buckets.length) b', m2.items⟩, some old,
      ?_, hitems, ?_, ?_⟩
    · simp only [hash_index_pos hash key hpos, hrep]
    · show (m2.buckets.set (hash key % m2.buckets.length) b').length = _
      rw [List.length_set]
      exact hlen
    · show 0 < (m2.buckets.set (hash key % m2.buckets.length) b').length
      rw [List.length_set]
      exact hpos
  | none =>
    refine ⟨⟨m2.buckets.set (hash key % m2.buckets.length)
      (m2.buckets.getD (hash key % m2.buckets.length) [] ++ [(key, value)]),
      m2.items⟩, none, ?_, hitems, ?_, ?_⟩
    · simp only [hash_index_pos hash key hpos, hrep]
    · show (m2.buckets.set (hash key % m2.buckets.length) _).length = _
      rw [List.length_set]
      exact hlen
    · show 0 < (m2.buckets.set (hash key % m2.buckets.length) _).length
      rw [List.length_set]
      exact hpos

/-- Round-trip on arbitrary table states: right after `insert(k, v)` returns,
`get(k)` returns `Some(v)`.  Needs no invariant: `get` probes exactly the
bucket `insert` just wrote, and both scans agree on the first matching
entry. -/
theorem insert_get (hash : K → Nat) (m : HashMap K V) (key : K) (value : V)
    {m' : HashMap K V} {old : Option V}
    (h : m.insert hash key value = some (m', old)) :
    m'.get hash key = some (some value) := by
  obtain ⟨m2, heq, hpos⟩ :
      ∃ m2 : HashMap K V, m.insert hash key value =
        (match HashMap.hash_index hash key m2.buckets.length with
          | none => none
          | some index =>
            let bucket := m2.buckets.getD index []
            match replaceInBucket key value bucket with
            | some (bucket', old) =>
                some (⟨m2.buckets.set index bucket', m2.items⟩, some old)
            | none =>
                some (⟨m2.buckets.set index (bucket ++ [(key, value)]), m2.items⟩, none))
        ∧ 0 < m2.buckets.length := by
    by_cases hcond : m.items + 1 > m.buckets.length * 3 / 4
    · obtain ⟨_, _, hrpos, _, _⟩ := resize_spec hash ⟨m.buckets, m.items + 1⟩
      exact ⟨HashMap.resize hash ⟨m.buckets, m.items + 1⟩,
        by rw [insert_eq, if_pos hcond], hrpos⟩
    · refine ⟨⟨m.buckets, m.items + 1⟩, by rw [insert_eq, if_neg hcond], ?_⟩
      rcases Nat.eq_zero_or_pos m.buckets.length with h0 | h0
      · rw [h0] at hcond
        omega
      · exact h0
  rw [heq] at h
  have hidx : hash key % m2.buckets.length < m2.buckets.length := Nat.mod_lt _ hpos
  cases hrep : replaceInBucket key value
      (m2.buckets.getD (hash key % m2.buckets.length) []) with
  | some p =>
    obtain ⟨b', old'⟩ := p
    simp only [hash_index_pos hash key hpos, hrep, Option.some.injEq, Prod.mk.injEq]
      at h
    obtain ⟨rfl, rfl⟩ := h
    obtain ⟨_, _, _, hfind', _⟩ := replaceInBucket_spec hrep
    have hplen : (m2.buckets.set (hash key % m2.buckets.length) b').length =
        m2.buckets.length := List.length_set _ _ _
    rw [HashMap.get]
    show (match HashMap.hash_index hash key
      (m2.buckets.set (hash key % m2.buckets.length) b').length with
      | none => none
      | some index => some (findValueInBucket key
          ((m2.buckets.set (hash key % m2.buckets.length) b').getD index []))) = _
    rw [hplen]
    simp only [hash_index_pos hash key hpos]
    rw [getD_set_self hidx]
    rw [hfind']
  | none =>
    simp only [hash_index_pos hash key hpos, hrep, Option.some.injEq, Prod.mk.injEq]
      at h
    obtain ⟨rfl, rfl⟩ := h
    have hfbnone : findValueInBucket key
        (m2.buckets.getD (hash key % m2.buckets.length) []) = none :=
      replaceInBucket_eq_none.mp hrep
    have hplen : (m2.buckets.set (hash key % m2.buckets.length)
        (m2.buckets.getD (hash key % m2.buckets.length) [] ++ [(key, value)])).length =
        m2.buckets.length := List.length_set _ _ _
    rw [HashMap.get]
    show (match HashMap.hash_index hash key
      (m2.buckets.set (hash key % m2.buckets.length)
        (m2.buckets.getD (hash key % m2.buckets.length) [] ++ [(key, value)])).length with
      | none => none
      | some index => some (findValueInBucket key
          ((m2.buckets.set (hash key % m2.buckets.length)
            (m2.buckets.getD (hash key % m2.buckets.length) [] ++ [(key, value)])).getD
            index []))) = _
    rw [hplen]
    simp only [hash_index_pos hash key hpos]
    rw [getD_set_self hidx, findValueInBucket_append, hfbnone]
    simp [findValueInBucket]

/-! ### `remove` master lemma -/

theorem cons_middle_perm {α : Type} (t g d : List α) (x : α) :
    (t ++ (x :: g) ++ d).Perm (x :: (t ++ g ++ d)) := by
  have h1 : t ++ (x :: g) = (t ++ [x]) ++ g := by simp
  rw [h1]
  have h2 : (t ++ [x]).Perm ([x] ++ t) := List.perm_append_comm
  have h3 := (h2.append_right g).append_right d
  refine h3.trans ?_
  simp

theorem remove_spec (hash : K → Nat) {m : HashMap K V} (hInv : m.Inv hash)
    (hpos : 0 < m.buckets.length) (key : K) :
    (m.tableLookup key = none → m.remove hash key = some (m, none)) ∧
    (∀ w, m.tableLookup key = some w →
      ∃ m', m.remove hash key = some (m', some w) ∧
        m'.Inv hash ∧
        m'.items = m.items - 1 ∧
        m'.buckets.length = m.buckets.length ∧
        m'.entriesCount + 1 = m.entriesCount ∧
        m'.tableLookup key = none ∧
        (∀ k', k' ≠ key → m'.tableLookup k' = m.tableLookup k')) := by
  have hidx : hash key % m.buckets.length < m.buckets.length := Nat.mod_lt _ hpos
  have hre : m.remove hash key =
      (match findEntry key (m.buckets.getD (hash key % m.buckets.length) []) with
        | none => some (m, none)
        | some (i, v) =>
          some (⟨m.buckets.set (hash key % m.buckets.length)
            (swapRemove (m.buckets.getD (hash key % m.buckets.length) []) i),
            m.items - 1⟩, some v)) := by
    simp only [HashMap.remove, hash_index_pos hash key hpos]
  constructor
  · intro hnone
    rw [lookup_bucket hash hInv key] at hnone
    have hfe : findEntry key (m.buckets.getD (hash key % m.buckets.length) []) =
        none := by
      have hms := @findEntry_map_snd K V _ key
        (m.buckets.getD (hash key % m.buckets.length) [])
      rw [hnone] at hms
      exact Option.map_eq_none'.mp hms
    rw [hre, hfe]
  · intro w hw
    rw [lookup_bucket hash hInv key] at hw
    have hms := @findEntry_map_snd K V _ key
      (m.buckets.getD (hash key % m.buckets.length) [])
    rw [hw] at hms
    obtain ⟨p, hp, hsnd⟩ := Option.map_eq_some'.mp hms
    obtain ⟨i, v⟩ := p
    rw [show v = w from hsnd] at hp
    have hget : (m.buckets.getD (hash key % m.buckets.length) [])[i]? =
        some (key, w) := findEntry_getElem hp
    have hperm : ((key, w) ::
        swapRemove (m.buckets.getD (hash key % m.buckets.length) []) i).Perm
        (m.buckets.getD (hash key % m.buckets.length) []) := swapRemove_perm hget
    set S := swapRemove (m.buckets.getD (hash key % m.buckets.length) []) i with hS
    set m' : HashMap K V :=
      ⟨m.buckets.set (hash key % m.buckets.length) S, m.items - 1⟩ with hm'
    have hlen' : m'.buckets.length = m.buckets.length := List.length_set _ _ _
    have hentries' : m'.entries =
        (m.buckets.take (hash key % m.buckets.length)).flatten ++ S ++
          (m.buckets.drop (hash key % m.buckets.length + 1)).flatten :=
      flatten_set hidx S
    have hdecomp := flatten_decomp hidx
    have hbigperm : m.entries.Perm ((key, w) :: m'.entries) := by
      rw [hentries', HashMap.entries, hdecomp]
      refine (List.Perm.append_right _ (List.Perm.append_left _ hperm.symm)).trans ?_
      exact cons_middle_perm _ _ _ _
    have hkeysperm : (m.entries.map Prod.fst).Perm
        (key :: m'.entries.map Prod.fst) := by
      simpa using hbigperm.map Prod.fst
    have hnd' : m'.keysNodup := by
      have := hkeysperm.nodup_iff.mp hInv.2
      exact (List.nodup_cons.mp this).2
    have hkeynotin : key ∉ m'.entries.map Prod.fst := by
      have := hkeysperm.nodup_iff.mp hInv.2
      exact (List.nodup_cons.mp this).1
    have hgood' : m'.goodIdx hash := by
      intro j kv hmem
      show hash kv.1 % m'.buckets.length = j
      rw [hlen']
      by_cases hjj : j = hash key % m.buckets.length
      · subst hjj
        rw [show m'.buckets = m.buckets.set (hash key % m.buckets.length) S from rfl,
          getD_set_self hidx] at hmem
        exact hInv.1 _ kv (hperm.subset (List.mem_cons_of_mem _ hmem))
      · rw [show m'.buckets = m.buckets.set (hash key % m.buckets.length) S from rfl,
          getD_set_ne hjj] at hmem
        exact hInv.1 j kv hmem
    have hInv' : m'.Inv hash := ⟨hgood', hnd'⟩
    refine ⟨m', ?_, hInv', rfl, hlen', ?_, ?_, ?_⟩
    · rw [hre, hp]
    · have := hbigperm.length_eq
      rw [List.length_cons] at this
      rw [HashMap.entriesCount, HashMap.entriesCount]
      omega
    · rw [HashMap.tableLookup, findValueInBucket_eq_none]
      exact hkeynotin
    · intro k' hk'
      cases hfv' : m'.tableLookup k' with
      | some v' =>
        have hmem : (k', v') ∈ m'.entries := findValueInBucket_mem hfv'
        have hmem2 : (k', v') ∈ m.entries :=
          hbigperm.mem_iff.mpr (List.mem_cons_of_mem _ hmem)
        exact (findValueInBucket_of_mem hInv.2 hmem2).symm
      | none =>
        rw [HashMap.tableLookup, findValueInBucket_eq_none] at hfv'
        rw [eq_comm, HashMap.tableLookup, findValueInBucket_eq_none]
        intro hmem
        rcases List.mem_map.mp hmem with ⟨kv, hkv, hfst⟩
        have : kv ∈ (key, w) :: m'.entries := hbigperm.mem_iff.mp hkv
        rcases List.mem_cons.mp this with rfl | hmem'
        · exact hk' hfst.symm
        · exact hfv' (List.mem_map.mpr ⟨kv, hmem', hfst⟩)

/-! ### Reachability invariants -/

/-- Every reachable table satisfies the structural invariant, and its `items`
counter equals the stored-entry count plus the number of overwriting inserts
performed so far. -/
theorem reachable_inv (hash : K → Nat) {n : Nat} {m : HashMap K V}
    (h : ReachableN hash n m) : m.Inv hash ∧ m.items = m.entriesCount + n := by
  induction h with
  | new =>
    refine ⟨⟨?_, List.nodup_nil⟩, rfl⟩
    intro i kv hmem
    cases i <;> cases hmem
  | @insert n' m0 m1 k v old hr hins ih =>
    obtain ⟨hInv, hcnt⟩ := ih
    obtain ⟨m'', heq, hInv', hitems, hpos, hcount, hlookkey, _⟩ :=
      insert_spec hash hInv k v
    rw [heq] at hins
    simp only [Option.some.injEq, Prod.mk.injEq] at hins
    obtain ⟨rfl, rfl⟩ := hins
    refine ⟨hInv', ?_⟩
    rw [hitems, hcount, hcnt]
    cases m0.tableLookup k <;> simp <;> omega
  | @remove n' m0 m1 k old hr hrem ih =>
    obtain ⟨hInv, hcnt⟩ := ih
    have hpos : 0 < m0.buckets.length := by
      rcases Nat.eq_zero_or_pos m0.buckets.length with h0 | h0
      · simp only [HashMap.remove, h0, hash_index_zero] at hrem
        cases hrem
      · exact h0
    obtain ⟨habs, hpres⟩ := remove_spec hash hInv hpos k
    cases hlk : m0.tableLookup k with
    | none =>
      rw [habs hlk] at hrem
      simp only [Option.some.injEq, Prod.mk.injEq] at hrem
      obtain ⟨rfl, rfl⟩ := hrem
      exact ⟨hInv, hcnt⟩
    | some w =>
      obtain ⟨m'', heq, hInv', hitems, _, hcnt', _, _⟩ := hpres w hlk
      rw [heq] at hrem
      simp only [Option.some.injEq, Prod.mk.injEq] at hrem
      obtain ⟨rfl, rfl⟩ := hrem
      refine ⟨hInv', ?_⟩
      rw [hitems, hcnt]
      omega

/-- Bucket-count schedule along insert-only histories: the table passes
through the states `(items, buckets)` = `(0,0), (1,1), (2,2)` and from the
third insert on keeps `items * 4 ≤ buckets * 3`. -/
theorem insertReach_inv (hash : K → Nat) {m : HashMap K V}
    (h : InsertReach hash m) :
    (m.items = 0 ∧ m.buckets.length = 0) ∨
    (m.items = 1 ∧ m.buckets.length = 1) ∨
    (m.items = 2 ∧ m.buckets.length = 2) ∨
    (3 ≤ m.items ∧ m.items * 4 ≤ m.buckets.length * 3) := by
  induction h with
  | new => exact Or.inl ⟨rfl, rfl⟩
  | @insert m0 m1 k v old hr hins ih =>
    obtain ⟨m'', old'', heq, hitems, hlen, hpos⟩ := insert_step hash m0 k v
    rw [heq] at hins
    simp only [Option.some.injEq, Prod.mk.injEq] at hins
    obtain ⟨rfl, rfl⟩ := hins
    have hmatch : (match m0.buckets.length with | 0 => 1 | n => n * 2) =
        if m0.buckets.length = 0 then 1 else m0.buckets.length * 2 := by
      cases m0.buckets.length <;> rfl
    rw [hmatch] at hlen
    rcases ih with ⟨hi, hb⟩ | ⟨hi, hb⟩ | ⟨hi, hb⟩ | ⟨hi, hb⟩
    · rw [hi, hb] at hlen
      rw [hi] at hitems
      norm_num at hlen
      exact Or.inr (Or.inl ⟨hitems, hlen⟩)
    · rw [hi, hb] at hlen
      rw [hi] at hitems
      norm_num at hlen
      exact Or.inr (Or.inr (Or.inl ⟨hitems, hlen⟩))
    · rw [hi, hb] at hlen
      rw [hi] at hitems
      norm_num at hlen
      refine Or.inr (Or.inr (Or.inr ⟨?_, ?_⟩)) <;> omega
    · by_cases hcond : m0.items + 1 > m0.buckets.length * 3 / 4
      · have hb0 : m0.buckets.length ≠ 0 := by omega
        rw [if_pos hcond, if_neg hb0] at hlen
        refine Or.inr (Or.inr (Or.inr ⟨?_, ?_⟩)) <;> omega
      · rw [if_neg hcond] at hlen
        refine Or.inr (Or.inr (Or.inr ⟨?_, ?_⟩)) <;> omega

/-! ### Iterator lemmas -/

/-- Past the end of the bucket array, `Iter::next` yields nothing. -/
theorem iterNext_end {bs : List (List (K × V))} {bucket_index elem_index : Nat}
    (h : bs.length ≤ bucket_index) : iterNext bs bucket_index elem_index = none := by
  rw [iterNext, show bs.length - bucket_index = 0 by omega]
  rfl

/-- If the current bucket still has an entry, `Iter::next` yields it and
advances the entry index. -/
theorem iterNext_yield {bs : List (List (K × V))} {bucket_index elem_index : Nat}
    {bucket : List (K × V)} {kv : K × V} (hb : bs[bucket_index]? = some bucket)
    (he : bucket[elem_index]? = some kv) :
    iterNext bs bucket_index elem_index = some (kv, bucket_index, elem_index + 1) := by
  have hlt : bucket_index < bs.length := by
    by_contra hc
    push_neg at hc
    rw [List.getElem?_eq_none hc] at hb
    cases hb
  rw [iterNext, show bs.length - bucket_index = (bs.length - (bucket_index + 1)) + 1
    by omega]
  simp only [iterNextFuel, hb, he]

/-- If the current bucket is exhausted, `Iter::next` moves to the next bucket
with entry index `0`. -/
theorem iterNext_skip {bs : List (List (K × V))} {bucket_index elem_index : Nat}
    {bucket : List (K × V)} (hb : bs[bucket_index]? = some bucket)
    (he : bucket[elem_index]? = none) :
    iterNext bs bucket_index elem_index = iterNext bs (bucket_index + 1) 0 := by
  have hlt : bucket_index < bs.length := by
    by_contra hc
    push_neg at hc
    rw [List.getElem?_eq_none hc] at hb
    cases hb
  rw [iterNext, show bs.length - bucket_index = (bs.length - (bucket_index + 1)) + 1
    by omega]
  simp only [iterNextFuel, hb, he]
  rw [iterNext]

theorem seqFrom_zero (bs : List (List (K × V))) : seqFrom bs 0 0 = bs.flatten := by
  rw [seqFrom, List.drop_zero, ← flatten_drop_succ bs 0, List.drop_zero]

theorem seqFrom_succ {bs : List (List (K × V))} {bucket_index elem_index : Nat}
    (h : (bs.getD bucket_index []).length ≤ elem_index) :
    seqFrom bs bucket_index elem_index = seqFrom bs (bucket_index + 1) 0 := by
  rw [seqFrom, seqFrom, List.drop_eq_nil_of_le h, List.drop_zero,
    ← flatten_drop_succ bs (bucket_index + 1)]
  rfl

theorem iterNextFuel_none_seq {bs : List (List (K × V))} :
    ∀ (fuel : Nat) {bucket_index elem_index : Nat},
      bs.length ≤ bucket_index + fuel →
      iterNextFuel fuel bs bucket_index elem_index = none →
      seqFrom bs bucket_index elem_index = []
  | 0, bi, ei, hf, _ => by
    rw [seqFrom, List.getD_eq_default _ _ (by omega), List.drop_nil,
      List.drop_eq_nil_of_le (show bs.length ≤ bi + 1 by omega)]
    rfl
  | fuel + 1, bi, ei, hf, h => by
    rw [iterNextFuel] at h
    cases hbs : bs[bi]? with
    | none =>
      have hbi : bs.length ≤ bi := List.getElem?_eq_none_iff.mp hbs
      rw [seqFrom, List.getD_eq_default _ _ hbi, List.drop_nil,
        List.drop_eq_nil_of_le (show bs.length ≤ bi + 1 by omega)]
      rfl
    | some bucket =>
      simp only [hbs] at h
      have hgd : bs.getD bi [] = bucket := by
        rw [List.getD_eq_getElem?_getD, hbs]
        rfl
      cases hkv : bucket[ei]? with
      | some kv =>
        rw [hkv] at h
        exact Option.noConfusion h
      | none =>
        rw [hkv] at h
        have hex : (bs.getD bi []).length ≤ ei := by
          rw [hgd]
          exact List.getElem?_eq_none_iff.mp hkv
        rw [seqFrom_succ hex]
        exact iterNextFuel_none_seq fuel (by omega) h

theorem iterNextFuel_some_seq {bs : List (List (K × V))} :
    ∀ (fuel : Nat) {bucket_index elem_index : Nat} {kv : K × V} {s : Nat × Nat},
      bs.length ≤ bucket_index + fuel →
      iterNextFuel fuel bs bucket_index elem_index = some (kv, s) →
      seqFrom bs bucket_index elem_index = kv :: seqFrom bs s.1 s.2
  | 0, bi, ei, kv, s, hf, h => Option.noConfusion h
  | fuel + 1, bi, ei, kv, s, hf, h => by
    rw [iterNextFuel] at h
    cases hbs : bs[bi]? with
    | none =>
      rw [hbs] at h
      exact Option.noConfusion h
    | some bucket =>
      simp only [hbs] at h
      have hgd : bs.getD bi [] = bucket := by
        rw [List.getD_eq_getElem?_getD, hbs]
        rfl
      cases hkv : bucket[ei]? with
      | some kv0 =>
        rw [hkv] at h
        have h2 : some (kv0, bi, ei + 1) = some (kv, s) := h
        simp only [Option.some.injEq, Prod.mk.injEq] at h2
        obtain ⟨rfl, rfl⟩ := h2
        obtain ⟨hlt, hget⟩ := List.getElem?_eq_some.mp hkv
        rw [seqFrom, seqFrom, hgd, List.drop_eq_getElem_cons hlt, hget]
        rfl
      | none =>
        rw [hkv] at h
        have hex : (bs.getD bi []).length ≤ ei := by
          rw [hgd]
          exact List.getElem?_eq_none_iff.mp hkv
        rw [seqFrom_succ hex]
        exact iterNextFuel_some_seq fuel (by omega) h

theorem iterNext_none_seq {bs : List (List (K × V))} {bucket_index elem_index : Nat}
    (h : iterNext bs bucket_index elem_index = none) :
    seqFrom bs bucket_index elem_index = [] :=
  iterNextFuel_none_seq (bs.length - bucket_index) (by omega) h

theorem iterNext_some_seq {bs : List (List (K × V))} {bucket_index elem_index : Nat}
    {kv : K × V} {s : Nat × Nat}
    (h : iterNext bs bucket_index elem_index = some (kv, s)) :
    seqFrom bs bucket_index elem_index = kv :: seqFrom bs s.1 s.2 :=
  iterNextFuel_some_seq (bs.length - bucket_index) (by omega) h

theorem iterListFuel_eq_seqFrom {bs : List (List (K × V))} :
    ∀ (fuel : Nat) {bucket_index elem_index : Nat},
      (seqFrom bs bucket_index elem_index).length ≤ fuel →
      iterListFuel fuel bs bucket_index elem_index = seqFrom bs bucket_index elem_index
  | 0, bi, ei, hf => by
    rw [iterListFuel, eq_comm]
    exact List.eq_nil_of_length_eq_zero (by omega)
  | fuel + 1, bi, ei, hf => by
    rw [iterListFuel]
    cases hnext : iterNext bs bi ei with
    | none => rw [eq_comm, iterNext_none_seq hnext]
    | some p =>
      obtain ⟨kv, s⟩ := p
      have hseq := iterNext_some_seq hnext
      show kv :: iterListFuel fuel bs s.1 s.2 = seqFrom bs bi ei
      rw [hseq, iterListFuel_eq_seqFrom fuel
        (by rw [hseq] at hf; simp only [List.length_cons] at hf; omega)]

/-- Driving `Iter::next` to exhaustion yields exactly the pending entries. -/
theorem iterList_eq_seqFrom (bs : List (List (K × V))) (bucket_index elem_index : Nat) :
    iterList bs bucket_index elem_index = seqFrom bs bucket_index elem_index :=
  iterListFuel_eq_seqFrom _ (Nat.le_refl _)

theorem remove_buckets_length (hash : K → Nat) {m m' : HashMap K V} {k : K}
    {old : Option V} (h : m.remove hash k = some (m', old)) :
    m'.buckets.length = m.buckets.length := by
  rcases Nat.eq_zero_or_pos m.buckets.length with h0 | hpos
  · simp only [HashMap.remove, h0, hash_index_zero] at h
    cases h
  · simp only [HashMap.remove, hash_index_pos hash k hpos] at h
    cases hfe : findEntry k (m.buckets.getD (hash k % m.buckets.length) []) with
    | none =>
      rw [hfe] at h
      have h2 : some (m, (none : Option V)) = some (m', old) := h
      simp only [Option.some.injEq, Prod.mk.injEq] at h2
      rw [← h2.1]
    | some p =>
      obtain ⟨i, v⟩ := p
      rw [hfe] at h
      have h2 : some ((⟨m.buckets.set (hash k % m.buckets.length)
          (swapRemove (m.buckets.getD (hash k % m.buckets.length) []) i),
          m.items - 1⟩ : HashMap K V), some v) = some (m', old) := h
      simp only [Option.some.injEq, Prod.mk.injEq] at h2
      rw [← h2.1]
      exact List.length_set _ _ _

/-! ### Claims -/

/-- C1: the spec says `get` and `remove` on a freshly constructed zero-bucket
table return `None` without faulting.  The code instead evaluates
`hasher.finish() % 0`, which panics; in the model both calls return the
fault marker (outer `none`) on `new` for every key. -/
theorem claim_C1_empty_table_fault (hash : K → Nat) (k : K) :
    HashMap.get hash (HashMap.new : HashMap K V) k = none ∧
    HashMap.remove hash (HashMap.new : HashMap K V) k = none :=
  ⟨rfl, rfl⟩

/-- C2 counterexample: the table reached by `insert(0,1); insert(0,2)` from
`new` is reachable (with one overwriting insert), but `len()` is `2` while
only one entry is stored. -/
theorem claim_C2_counterexample :
    ReachableN id 1 (⟨[[(0, 2)], []], 2⟩ : HashMap Nat Nat) ∧
    (⟨[[(0, 2)], []], 2⟩ : HashMap Nat Nat).len = 2 ∧
    (⟨[[(0, 2)], []], 2⟩ : HashMap Nat Nat).entriesCount = 1 := by
  refine ⟨?_, rfl, rfl⟩
  have h1 : (HashMap.new : HashMap Nat Nat).insert id 0 1 =
      some (⟨[[(0, 1)]], 1⟩, none) := rfl
  have h2 : (⟨[[(0, 1)]], 1⟩ : HashMap Nat Nat).insert id 0 2 =
      some (⟨[[(0, 2)], []], 2⟩, some 1) := rfl
  have r1 : ReachableN id 0 (⟨[[(0, 1)]], 1⟩ : HashMap Nat Nat) :=
    ReachableN.insert ReachableN.new h1
  exact ReachableN.insert r1 h2

/-- C2 (amended): for every reachable table, `len()` equals the number of
stored entries plus the number of overwriting inserts performed so far;
inserts of fresh keys and removes preserve the equality, while each
overwriting insert increases `len()` without adding an entry. -/
theorem claim_C2_len_entries (hash : K → Nat) (n : Nat) (m : HashMap K V)
    (h : ReachableN hash n m) : m.len = m.entriesCount + n :=
  (reachable_inv hash h).2

theorem claim_C2_len_entries_witness :
    (⟨[[(0, 2)], []], 2⟩ : HashMap Nat Nat).len =
      (⟨[[(0, 2)], []], 2⟩ : HashMap Nat Nat).entriesCount + 1 :=
  claim_C2_len_entries id 1 ⟨[[(0, 2)], []], 2⟩
    (ReachableN.insert
      (ReachableN.insert ReachableN.new
        (rfl : (HashMap.new : HashMap Nat Nat).insert id 0 1 =
          some (⟨[[(0, 1)]], 1⟩, none)))
      (rfl : (⟨[[(0, 1)]], 1⟩ : HashMap Nat Nat).insert id 0 2 =
        some (⟨[[(0, 2)], []], 2⟩, some 1)))

/-- C3: round-trip on every table state — immediately after
`insert(k, v)` returns, `get(k)` returns `Some(v)`. -/
theorem claim_C3_round_trip (hash : K → Nat) (m : HashMap K V) (k : K) (v : V)
    (m' : HashMap K V) (old : Option V)
    (h : m.insert hash k v = some (m', old)) :
    m'.get hash k = some (some v) :=
  insert_get hash m k v h

theorem claim_C3_round_trip_witness :
    (HashMap.new : HashMap Nat Nat).insert id 0 7 = some (⟨[[(0, 7)]], 1⟩, none) ∧
    (⟨[[(0, 7)]], 1⟩ : HashMap Nat Nat).get id 0 = some (some 7) :=
  ⟨rfl, claim_C3_round_trip id HashMap.new 0 7 ⟨[[(0, 7)]], 1⟩ none rfl⟩

/-- C4: on every reachable table, `insert(k, v)` returns `Some` of the
previously stored value exactly when an entry with key `k` exists (and then
stores `v` under `k` in place, leaving the entry count unchanged), and
returns `None` and adds one entry when no entry matches; all other keys are
untouched. -/
theorem claim_C4_insert_semantics (hash : K → Nat) {m : HashMap K V}
    (hreach : Reachable hash m) (k : K) (v : V) :
    ∃ m', m.insert hash k v = some (m', m.tableLookup k) ∧
      m'.tableLookup k = some v ∧
      (∀ k', k' ≠ k → m'.tableLookup k' = m.tableLookup k') ∧
      m'.entriesCount = m.entriesCount +
        (if (m.tableLookup k).isSome then 0 else 1) := by
  obtain ⟨n, hn⟩ := hreach
  obtain ⟨hInv, _⟩ := reachable_inv hash hn
  obtain ⟨m', heq, _, _, _, hcount, hlookk, hothers⟩ := insert_spec hash hInv k v
  exact ⟨m', heq, hlookk, hothers, hcount⟩

theorem claim_C4_insert_semantics_witness :
    ∃ m', (⟨[[(0, 1)]], 1⟩ : HashMap Nat Nat).insert id 0 9 =
        some (m', (⟨[[(0, 1)]], 1⟩ : HashMap Nat Nat).tableLookup 0) ∧
      m'.tableLookup 0 = some 9 ∧
      (∀ k', k' ≠ 0 → m'.tableLookup k' =
        (⟨[[(0, 1)]], 1⟩ : HashMap Nat Nat).tableLookup k') ∧
      m'.entriesCount = (⟨[[(0, 1)]], 1⟩ : HashMap Nat Nat).entriesCount +
        (if ((⟨[[(0, 1)]], 1⟩ : HashMap Nat Nat).tableLookup 0).isSome
          then 0 else 1) :=
  claim_C4_insert_semantics id
    ⟨0, ReachableN.insert ReachableN.new
      (rfl : (HashMap.new : HashMap Nat Nat).insert id 0 1 =
        some (⟨[[(0, 1)]], 1⟩, none))⟩ 0 9

/-- C5 counterexample: the freshly constructed table is reachable, yet
`remove` on it faults (divide-by-zero in `hash_index`) instead of returning
`None`. -/
theorem claim_C5_counterexample :
    HashMap.remove id (HashMap.new : HashMap Nat Nat) 5 = none ∧
    Reachable id (HashMap.new : HashMap Nat Nat) :=
  ⟨rfl, 0, ReachableN.new⟩

/-- C5 (amended): on every reachable table with at least one bucket (any
table after its first insert), `remove(k)` on an absent key returns `None`
and leaves the table — entries and `len()` — exactly unchanged; on a present
key it returns the stored value, a subsequent `get(k)` returns `None`, and
`len()` decreases by exactly one. -/
theorem claim_C5_remove (hash : K → Nat) {m : HashMap K V}
    (hreach : Reachable hash m) (hpos : 0 < m.buckets.length) (k : K) :
    (m.tableLookup k = none → m.remove hash k = some (m, none)) ∧
    (∀ w, m.tableLookup k = some w →
      ∃ m', m.remove hash k = some (m', some w) ∧
        m'.get hash k = some none ∧
        m'.len + 1 = m.len) := by
  obtain ⟨n, hn⟩ := hreach
  obtain ⟨hInv, hcnt⟩ := reachable_inv hash hn
  obtain ⟨habs, hpres⟩ := remove_spec hash hInv hpos k
  refine ⟨habs, ?_⟩
  intro w hw
  obtain ⟨m', heq, hInv', hitems, hlen', hcntdec, hlknone, _⟩ := hpres w hw
  refine ⟨m', heq, ?_, ?_⟩
  · rw [get_eq_tableLookup hash hInv' (by rw [hlen']; exact hpos) k, hlknone]
  · show m'.items + 1 = m.items
    omega

theorem claim_C5_remove_witness :
    ((⟨[[(0, 1)]], 1⟩ : HashMap Nat Nat).tableLookup 1 = none →
      (⟨[[(0, 1)]], 1⟩ : HashMap Nat Nat).remove id 1 =
        some (⟨[[(0, 1)]], 1⟩, none)) ∧
    ((⟨[[(0, 1)]], 1⟩ : HashMap Nat Nat).tableLookup 1 = none) ∧
    (∃ m', (⟨[[(0, 1)]], 1⟩ : HashMap Nat Nat).remove id 0 =
        some (m', some 1) ∧
      m'.get id 0 = some none ∧
      m'.len + 1 = (⟨[[(0, 1)]], 1⟩ : HashMap Nat Nat).len) := by
  have hreach : Reachable id (⟨[[(0, 1)]], 1⟩ : HashMap Nat Nat) :=
    ⟨0, ReachableN.insert ReachableN.new
      (rfl : (HashMap.new : HashMap Nat Nat).insert id 0 1 =
        some (⟨[[(0, 1)]], 1⟩, none))⟩
  refine ⟨(claim_C5_remove id hreach (by decide) 1).1, rfl, ?_⟩
  exact (claim_C5_remove id hreach (by decide) 0).2 1 rfl

/-- C6 counterexample: the table reached by one insert from `new` has
`len() = 1` and one bucket, so `len() ≤ 3/4 · bucket_count` fails (both in
rational form `4·len ≤ 3·buckets` and in the code's floor form). -/
theorem claim_C6_counterexample :
    (HashMap.new : HashMap Nat Nat).insert id 0 1 = some (⟨[[(0, 1)]], 1⟩, none) ∧
    InsertReach id (⟨[[(0, 1)]], 1⟩ : HashMap Nat Nat) ∧
    ¬((⟨[[(0, 1)]], 1⟩ : HashMap Nat Nat).len * 4 ≤
      (⟨[[(0, 1)]], 1⟩ : HashMap Nat Nat).buckets.length * 3) ∧
    ¬((⟨[[(0, 1)]], 1⟩ : HashMap Nat Nat).len ≤
      (⟨[[(0, 1)]], 1⟩ : HashMap Nat Nat).buckets.length * 3 / 4) :=
  ⟨rfl, InsertReach.insert InsertReach.new
    (rfl : (HashMap.new : HashMap Nat Nat).insert id 0 1 =
      some (⟨[[(0, 1)]], 1⟩, none)), by decide, by decide⟩

/-- C6 (amended): after any sequence of at least three inserts from `new`
(equivalently, whenever `len() ≥ 3` on an insert-only history), the load
invariant `len() ≤ 3/4 · bucket_count` holds, in rational and floor form;
after the first and second insert it is violated (`1 > 3/4·1`, `2 > 3/4·2`). -/
theorem claim_C6_growth (hash : K → Nat) {m : HashMap K V}
    (h : InsertReach hash m) (h3 : 3 ≤ m.len) :
    m.len * 4 ≤ m.buckets.length * 3 ∧
    m.len ≤ m.buckets.length * 3 / 4 := by
  have hlen : m.len = m.items := rfl
  rcases insertReach_inv hash h with ⟨hi, _⟩ | ⟨hi, _⟩ | ⟨hi, _⟩ | ⟨_, hb⟩ <;>
    rw [hlen] at h3 ⊢ <;>
    constructor <;>
    omega

theorem claim_C6_growth_witness :
    3 ≤ (⟨[[(0, 10)], [(1, 11)], [(2, 12)], []], 3⟩ : HashMap Nat Nat).len ∧
    (⟨[[(0, 10)], [(1, 11)], [(2, 12)], []], 3⟩ : HashMap Nat Nat).len * 4 ≤
      (⟨[[(0, 10)], [(1, 11)], [(2, 12)], []], 3⟩ : HashMap Nat Nat).buckets.length * 3 ∧
    (⟨[[(0, 10)], [(1, 11)], [(2, 12)], []], 3⟩ : HashMap Nat Nat).len ≤
      (⟨[[(0, 10)], [(1, 11)], [(2, 12)], []], 3⟩ :
        HashMap Nat Nat).buckets.length * 3 / 4 := by
  have hr : InsertReach id
      (⟨[[(0, 10)], [(1, 11)], [(2, 12)], []], 3⟩ : HashMap Nat Nat) :=
    InsertReach.insert
      (InsertReach.insert
        (InsertReach.insert InsertReach.new
          (rfl : (HashMap.new : HashMap Nat Nat).insert id 0 10 =
            some (⟨[[(0, 10)]], 1⟩, none)))
        (rfl : (⟨[[(0, 10)]], 1⟩ : HashMap Nat Nat).insert id 1 11 =
          some (⟨[[(0, 10)], [(1, 11)]], 2⟩, none)))
      (rfl : (⟨[[(0, 10)], [(1, 11)]], 2⟩ : HashMap Nat Nat).insert id 2 12 =
        some (⟨[[(0, 10)], [(1, 11)], [(2, 12)], []], 3⟩, none))
  exact ⟨by decide, (claim_C6_growth id hr (by decide)).1,
    (claim_C6_growth id hr (by decide)).2⟩

/-- C7: `resize` picks target size 1 from zero buckets and exactly doubles
otherwise, and redistributes the entries as a permutation — every entry
moved exactly once, none lost or duplicated — with each entry landing in
bucket `hash(key) mod target_size` of the new array. -/
theorem claim_C7_resize (hash : K → Nat) (m : HashMap K V) :
    (m.buckets.length = 0 → (m.resize hash).buckets.length = 1) ∧
    (0 < m.buckets.length →
      (m.resize hash).buckets.length = 2 * m.buckets.length) ∧
    ((m.resize hash).entries).Perm m.entries ∧
    (m.resize hash).goodIdx hash := by
  obtain ⟨_, hlen, _, hperm, hgood⟩ := resize_spec hash m
  refine ⟨?_, ?_, hperm, hgood⟩
  · intro h0
    rw [hlen, h0]
  · intro hp
    obtain ⟨j, hj⟩ : ∃ j, m.buckets.length = j + 1 :=
      ⟨m.buckets.length - 1, by omega⟩
    rw [hlen, hj]
    show (j + 1) * 2 = 2 * (j + 1)
    omega

theorem claim_C7_resize_witness :
    (HashMap.resize id (⟨[[(0, 1)], [(5, 2)]], 2⟩ :
      HashMap Nat Nat)).buckets.length = 2 * 2 ∧
    ((HashMap.resize id (⟨[[(0, 1)], [(5, 2)]], 2⟩ : HashMap Nat Nat)).entries).Perm
      [(0, 1), (5, 2)] ∧
    (HashMap.resize id (⟨[[(0, 1)], [(5, 2)]], 2⟩ : HashMap Nat Nat)).goodIdx id :=
  ⟨(claim_C7_resize id ⟨[[(0, 1)], [(5, 2)]], 2⟩).2.1 (by decide),
    (claim_C7_resize id ⟨[[(0, 1)], [(5, 2)]], 2⟩).2.2.1,
    (claim_C7_resize id ⟨[[(0, 1)], [(5, 2)]], 2⟩).2.2.2⟩

/-- C8: a full pass of `Iter::next` from the initial cursor `(0, 0)` yields
exactly the stored entries, in bucket-index order and intra-bucket order,
and once the bucket index runs past the bucket array every advance yields
nothing.  `iterNext` reads the buckets and returns only a new cursor, so
iteration never changes the table. -/
theorem claim_C8_iteration (m : HashMap K V) :
    iterList m.buckets 0 0 = m.entries ∧
    (∀ bucket_index elem_index : Nat, m.buckets.length ≤ bucket_index →
      iterNext m.buckets bucket_index elem_index = none) := by
  constructor
  · rw [iterList_eq_seqFrom, seqFrom_zero]
    rfl
  · intro bucket_index elem_index h
    exact iterNext_end h

theorem claim_C8_iteration_witness :
    iterList ([[(1, 2), (3, 4)], [], [(5, 6)]] : List (List (Nat × Nat))) 0 0 =
      [(1, 2), (3, 4), (5, 6)] ∧
    iterNext ([[(1, 2), (3, 4)], [], [(5, 6)]] : List (List (Nat × Nat))) 3 0 =
      none :=
  ⟨(claim_C8_iteration (⟨[[(1, 2), (3, 4)], [], [(5, 6)]], 3⟩ : HashMap Nat Nat)).1,
    (claim_C8_iteration (⟨[[(1, 2), (3, 4)], [], [(5, 6)]], 3⟩ :
      HashMap Nat Nat)).2 3 0 (by decide)⟩

/-- C9: `insert` always returns normally and leaves at least one bucket
(it resizes before indexing), `remove` never changes the bucket count, and
on any table with at least one bucket — hence on any table that has received
an insert — `get`, `contains_key` and `remove` all return normally: none of
them ever evaluates `hash(key) mod 0`. -/
theorem claim_C9_no_mod_zero (hash : K → Nat) :
    (∀ (m : HashMap K V) (k : K) (v : V), ∃ m' old,
        m.insert hash k v = some (m', old) ∧ 1 ≤ m'.buckets.length) ∧
    (∀ (m m' : HashMap K V) (k : K) (old : Option V),
        m.remove hash k = some (m', old) →
        m'.buckets.length = m.buckets.length) ∧
    (∀ (m : HashMap K V) (k : K), 1 ≤ m.buckets.length →
        m.get hash k ≠ none ∧ m.contains_key hash k ≠ none ∧
        m.remove hash k ≠ none) := by
  refine ⟨?_, ?_, ?_⟩
  · intro m k v
    obtain ⟨m', old, heq, _, _, hpos⟩ := insert_step hash m k v
    exact ⟨m', old, heq, hpos⟩
  · intro m m' k old h
    exact remove_buckets_length hash h
  · intro m k hpos
    refine ⟨?_, ?_, ?_⟩
    · simp only [HashMap.get, hash_index_pos hash k hpos]
      exact fun h => Option.noConfusion h
    · simp only [HashMap.contains_key, HashMap.get, hash_index_pos hash k hpos]
      exact fun h => Option.noConfusion h
    · simp only [HashMap.remove, hash_index_pos hash k hpos]
      cases hfe : findEntry k (m.buckets.getD (hash k % m.buckets.length) []) with
      | none => exact fun h => Option.noConfusion h
      | some p =>
        obtain ⟨i, v⟩ := p
        exact fun h => Option.noConfusion h

theorem claim_C9_no_mod_zero_witness :
    (∃ m' old, (HashMap.new : HashMap Nat Nat).insert id 3 4 = some (m', old) ∧
      1 ≤ m'.buckets.length) ∧
    ((⟨[[(0, 1)]], 1⟩ : HashMap Nat Nat).get id 7 ≠ none ∧
      (⟨[[(0, 1)]], 1⟩ : HashMap Nat Nat).contains_key id 7 ≠ none ∧
      (⟨[[(0, 1)]], 1⟩ : HashMap Nat Nat).remove id 7 ≠ none) :=
  ⟨(@claim_C9_no_mod_zero Nat Nat _ id).1 HashMap.new 3 4,
    (@claim_C9_no_mod_zero Nat Nat _ id).2.2 ⟨[[(0, 1)]], 1⟩ 7 (by decide)⟩

/-- C10: the sequence `insert(0,1); insert(0,2); remove(0)` from `new`
leaves a table with `len() = 1` and `is_empty() = false` although it stores
no entries: every `get` returns `None` and a full iteration yields nothing. -/
theorem claim_C10_phantom_len :
    (HashMap.new : HashMap Nat Nat).insert id 0 1 = some (⟨[[(0, 1)]], 1⟩, none) ∧
    (⟨[[(0, 1)]], 1⟩ : HashMap Nat Nat).insert id 0 2 =
      some (⟨[[(0, 2)], []], 2⟩, some 1) ∧
    (⟨[[(0, 2)], []], 2⟩ : HashMap Nat Nat).remove id 0 =
      some (⟨[[], []], 1⟩, some 2) ∧
    (⟨[[], []], 1⟩ : HashMap Nat Nat).len = 1 ∧
    (⟨[[], []], 1⟩ : HashMap Nat Nat).is_empty = false ∧
    (⟨[[], []], 1⟩ : HashMap Nat Nat).entriesCount = 0 ∧
    (∀ k' : Nat, HashMap.get id (⟨[[], []], 1⟩ : HashMap Nat Nat) k' = some none) ∧
    iterList (⟨[[], []], 1⟩ : HashMap Nat Nat).buckets 0 0 = [] := by
  refine ⟨rfl, rfl, rfl, rfl, rfl, rfl, ?_, rfl⟩
  intro k'
  rcases Nat.mod_two_eq_zero_or_one k' with h | h <;>
    simp [HashMap.get, HashMap.hash_index, h, findValueInBucket]

end MfdHashmap
